import Mathlib

/-!
Shallow embedding of the named-capture-group metadata extractor of the
`rust-onig` crate (file `src/names.rs`).

The unit walks a foreign bucketed hash table (oniguruma's `st_table`)
owned by a compiled pattern.  Foreign pointers are modelled by the data
they give access to: a bucket is the list of chain entries reachable
from its head pointer (the `next` pointer of `StTableEntry` is the tail
of the list), a byte pointer together with the memory behind it is a
`List UInt8`, an `int` pointer a `List Int`.  C `int` values are
modelled as `Int`; the `as usize` cast of the source is `usizeCast`.
-/

namespace RustOnig

/-- Foreign `NameEntry` record (see `names.rs` lines 30-39): `name` is the
byte buffer behind the `name: *const c_uchar` pointer, `back_refs` the
integer buffer behind `back_refs: *const c_int`. -/
structure NameEntry where
  name : List UInt8
  name_len : Int
  back_num : Int
  back_alloc : Int
  back_ref1 : Int
  back_refs : List Int
  deriving DecidableEq

/-- Foreign `StTableEntry` (see `names.rs` lines 41-48).  The `record`
field is a `c_ulong` holding a pointer to a `NameEntry`; the dereference
is modelled by storing the record directly.  The `next` chain pointer is
modelled structurally: a bucket is a `List StTableEntry` whose tail is
the chain behind `next`. -/
structure StTableEntry where
  hash : Nat
  key : Nat
  record : NameEntry
  deriving DecidableEq

/-- Foreign `StTable` (see `names.rs` lines 50-57).  `bins` is the array
of bucket-head pointers behind `bins: *const *const StTableEntry`, each
bucket given as its chain of entries; the `type_` function-table pointer
is never read and is omitted. -/
structure StTable where
  num_bins : Int
  num_entries : Int
  bins : List (List StTableEntry)
  deriving DecidableEq

/-- The compiled pattern handle.  Of the foreign `regex_t` behind
`Regex.raw` this unit only ever reads the `name_table` pointer
(`names.rs` line 22); `none` models a null pointer. -/
structure Regex where
  name_table : Option StTable
  deriving DecidableEq

/-- Iterator state (see `names.rs` lines 63-68): `table` models the
`*const StTable` (null = `none`), `entry_ptr` the `*const StTableEntry`
chain position (null = `[]`, otherwise the entry pointed to followed by
the rest of its chain). -/
structure Names where
  table : Option StTable
  bin_idx : Int
  entry_ptr : List StTableEntry
  deriving DecidableEq

/-- Rust's `as usize` cast on a C integer: reduction of the two's
complement value modulo `2 ^ 64`. -/
def usizeCast (n : Int) : Nat := (n % (2 ^ 64 : Int)).toNat

/-- Decoding of one `NameEntry` into a `(name, group-indices)` pair,
mirroring `names.rs` lines 84-92: the name is the `name_len as usize`
bytes at `name`; the indices are the `back_num as usize` integers at
`back_refs` when `back_num > 1`, and otherwise the one-element view over
the inline `back_ref1` field. -/
def decodeEntry (e : NameEntry) : List UInt8 × List Int :=
  (e.name.take (usizeCast e.name_len),
   if e.back_num > 1 then e.back_refs.take (usizeCast e.back_num)
   else [e.back_ref1])

/-- The `while self.entry_ptr.is_null()` loop of `Names::next`
(`names.rs` lines 75-82), entered with a null `entry_ptr` and a non-null
table.  Each iteration either returns `None` (guard
`self.bin_idx + 1 >= num_bins`), or advances `bin_idx` and loads the
bucket head `*bins.offset(bin_idx)`.  The loop advances `bin_idx` at
most `num_bins - bin_idx - 1` times, so `scanBins` runs it with fuel
`(num_bins - bin_idx).toNat`, which never runs out.  The bucket-array
dereference is modelled as a list lookup; parameter `d` stands for
whatever an out-of-bounds dereference would read — the bounds theorem
shows the result never depends on `d`. -/
def scanBinsAux (d : List StTableEntry) :
    Nat → StTable → Int → Option (List UInt8 × List Int) × Names
  | 0, t, i => (none, ⟨some t, i, []⟩)
  | n + 1, t, i =>
    if t.num_bins ≤ i + 1 then
      (none, ⟨some t, i, []⟩)
    else
      match t.bins.getD (i + 1).toNat d with
      | [] => scanBinsAux d n t (i + 1)
      | e :: rest => (some (decodeEntry e.record), ⟨some t, i + 1, rest⟩)

/-- The bucket-scanning loop with its canonical fuel. -/
def scanBins (t : StTable) (i : Int) :
    Option (List UInt8 × List Int) × Names :=
  scanBinsAux [] (t.num_bins - i).toNat t i

/-- One step of the iterator, `Names::next` (`names.rs` lines 74-95).
The mutation of `&mut self` is modelled by returning the new state next
to the yielded item: `none` is Rust's `None` (end of sequence). -/
def Names.next (s : Names) : Option (List UInt8 × List Int) × Names :=
  match s.entry_ptr with
  | e :: rest => (some (decodeEntry e.record), ⟨s.table, s.bin_idx, rest⟩)
  | [] =>
    match s.table with
    | none => (none, s)
    | some t => scanBins t s.bin_idx

/-- `Regex::names` (`names.rs` lines 20-27): a fresh iterator over the
pattern's name table, with `bin_idx = -1` and a null `entry_ptr`. -/
def Regex.names (r : Regex) : Names :=
  ⟨r.name_table, -1, []⟩

/-- Modelled from the spec: `Regex::names_len` (`names.rs` lines 14-16)
delegates to the foreign `onig_sys::onig_number_of_names`, whose code is
not part of this repository.  The spec pins it down as the exact count
of distinct registered names, one table entry per name (a name labelling
several groups has a single entry); a null table holds no names. -/
def Regex.names_len (r : Regex) : Nat :=
  match r.name_table with
  | none => 0
  | some t => (t.bins.map List.length).sum

/-- Decoding of a whole chain of entries, head to tail. -/
def chainDecode (c : List StTableEntry) : List (List UInt8 × List Int) :=
  c.map fun e => decodeEntry e.record

/-- All pairs registered in buckets `i, i+1, ...`, in bucket order and,
within a bucket, chain order. -/
def binsFrom (t : StTable) (i : Int) : List (List UInt8 × List Int) :=
  ((t.bins.drop i.toNat).map chainDecode).flatten

/-- Every `(name, indices)` pair registered in the pattern's table, in
bucket-ascending then chain order. -/
def registeredPairs (r : Regex) : List (List UInt8 × List Int) :=
  match r.name_table with
  | none => []
  | some t => binsFrom t 0

/-- Ghost view of an iterator state: the pairs its remaining steps will
yield — the rest of the pending chain, then the buckets after
`bin_idx`. -/
def Names.pending (s : Names) : List (List UInt8 × List Int) :=
  chainDecode s.entry_ptr ++
    match s.table with
    | none => []
    | some t => binsFrom t (s.bin_idx + 1)

/-- Repeated calls of `next`, keeping the yielded items, stopping at the
first end-of-sequence result or when the fuel runs out. -/
def Names.collectAux : Nat → Names → List (List UInt8 × List Int)
  | 0, _ => []
  | n + 1, s =>
    match Names.next s with
    | (none, _) => []
    | (some a, s') => a :: Names.collectAux n s'

/-- A full pass of the iterator: `next` repeated until end of sequence
(the fuel `s.pending.length` is exact, by `collectAux_pending`). -/
def Names.collect (s : Names) : List (List UInt8 × List Int) :=
  Names.collectAux s.pending.length s

/-- The iterator state after `k` calls of `next`. -/
def Names.stepN : Nat → Names → Names
  | 0, s => s
  | k + 1, s => Names.stepN k (Names.next s).2

/-- Structural well-formedness of a foreign table: the `num_bins` field
is the length of the bucket-pointer array. -/
def StTable.Wf (t : StTable) : Prop :=
  t.num_bins = (t.bins.length : Int)

/-- Well-formedness of a compiled pattern's name table, when present. -/
def Regex.Wf (r : Regex) : Prop :=
  ∀ t, r.name_table = some t → t.Wf

/-- The foreign validity invariants of one `NameEntry` (spec §3):
`name_len` exactly bounds the byte span behind `name`, `back_num ≥ 1`,
and when `back_num > 1` the buffer behind `back_refs` holds `back_num`
integers.  The C fields are 32-bit `int`s. -/
def NameEntry.Valid (e : NameEntry) : Prop :=
  0 ≤ e.name_len ∧ e.name_len < 2 ^ 31 ∧ e.name_len.toNat ≤ e.name.length ∧
  1 ≤ e.back_num ∧ e.back_num < 2 ^ 31 ∧
  (1 < e.back_num → e.back_num.toNat ≤ e.back_refs.length)

/-- Modelled from the spec: the name-table entry the engine registers
for `foo` in scenario A of §8 — `foo` labels capture group 1 only, so
`back_num = 1` and the index lives inline in `back_ref1`. -/
def fooEntry : NameEntry :=
  ⟨[102, 111, 111], 3, 1, 0, 1, []⟩

/-- Modelled from the spec: the entry for `bar` in scenario A — `bar`
labels capture groups 2 and 3, so `back_num = 2` and the indices live in
the buffer behind `back_refs`. -/
def barEntry : NameEntry :=
  ⟨[98, 97, 114], 3, 2, 2, 2, [2, 3]⟩

/-- Modelled from the spec: the name table the engine builds for
scenario A of §8.  The engine's hashing is outside this unit; the spec
pins its bucket/chain order for this pattern to yield `foo` before
`bar`, realised here by a two-bucket table. -/
def fooBarTable : StTable :=
  ⟨2, 2, [[⟨0, 0, fooEntry⟩], [⟨0, 0, barEntry⟩]]⟩

/-- Modelled from the spec: the compiled pattern for
`(?<foo>he)(?<bar>l+)(?<bar>o)` (scenario A of §8). -/
def fooBarRegex : Regex :=
  ⟨some fooBarTable⟩

/-- Modelled from the spec: a pattern with no named groups compiles to a
handle with a null name-table pointer. -/
def noNamesRegex : Regex :=
  ⟨none⟩

/-- An entry violating the foreign invariants of spec §3: its group
count `back_num` is `0` and its name byte `0xFF` is not well-formed
UTF-8. -/
def badEntry : NameEntry :=
  ⟨[255], 1, 0, 0, 7, []⟩

/-- A well-formed entry (name `"a"`, labelling group 4 only), placed
after `badEntry` in its chain. -/
def tailEntry : NameEntry :=
  ⟨[97], 1, 1, 0, 4, []⟩

/-- A pattern whose single bucket chains `badEntry` before `tailEntry`:
its foreign data violates the §3 invariants at the first entry. -/
def badRegex : Regex :=
  ⟨some ⟨1, 2, [[⟨0, 0, badEntry⟩, ⟨0, 0, tailEntry⟩]]⟩⟩

/-- A table whose first and last buckets are empty, exercising the
empty-bucket skipping of the scan loop. -/
def skipTable : StTable :=
  ⟨3, 1, [[], [⟨0, 0, tailEntry⟩], []]⟩

/-- A pattern holding `skipTable`. -/
def skipRegex : Regex :=
  ⟨some skipTable⟩

lemma scanBinsAux_state (d : List StTableEntry) (n : Nat) (t : StTable) (i : Int) :
    (scanBinsAux d n t i).2.table = some t ∧ i ≤ (scanBinsAux d n t i).2.bin_idx := by
  induction n generalizing i with
  | zero => exact ⟨rfl, le_refl i⟩
  | succ n ih =>
    by_cases h : t.num_bins ≤ i + 1
    · rw [scanBinsAux, if_pos h]
      exact ⟨rfl, le_refl i⟩
    · rw [scanBinsAux, if_neg h]
      cases hb : t.bins.getD (i + 1).toNat d with
      | nil =>
        show (scanBinsAux d n t (i + 1)).2.table = some t ∧
          i ≤ (scanBinsAux d n t (i + 1)).2.bin_idx
        have h2 := ih (i + 1)
        exact ⟨h2.1, by omega⟩
      | cons e rest =>
        exact ⟨rfl, by show i ≤ i + 1; omega⟩

lemma scanBinsAux_bin_lt (d : List StTableEntry) (n : Nat) (t : StTable) (i : Int)
    (h : i < t.num_bins) : (scanBinsAux d n t i).2.bin_idx < t.num_bins := by
  induction n generalizing i with
  | zero => exact h
  | succ n ih =>
    by_cases hg : t.num_bins ≤ i + 1
    · rw [scanBinsAux, if_pos hg]
      exact h
    · rw [scanBinsAux, if_neg hg]
      cases hb : t.bins.getD (i + 1).toNat d with
      | nil =>
        show (scanBinsAux d n t (i + 1)).2.bin_idx < t.num_bins
        exact ih (i + 1) (by omega)
      | cons e rest =>
        show i + 1 < t.num_bins
        omega

lemma scanBinsAux_none_char (d : List StTableEntry) (n : Nat) (t : StTable) (i : Int)
    (s' : Names) (hn : (t.num_bins - i).toNat ≤ n)
    (h : scanBinsAux d n t i = (none, s')) :
    s' = ⟨some t, s'.bin_idx, []⟩ ∧ t.num_bins ≤ s'.bin_idx + 1 ∧ i ≤ s'.bin_idx := by
  induction n generalizing i with
  | zero =>
    rw [scanBinsAux] at h
    have h2 : (⟨some t, i, []⟩ : Names) = s' := congrArg Prod.snd h
    subst h2
    exact ⟨rfl, by show t.num_bins ≤ i + 1; omega, le_refl i⟩
  | succ n ih =>
    by_cases hg : t.num_bins ≤ i + 1
    · rw [scanBinsAux, if_pos hg] at h
      have h2 : (⟨some t, i, []⟩ : Names) = s' := congrArg Prod.snd h
      subst h2
      exact ⟨rfl, by show t.num_bins ≤ i + 1; omega, le_refl i⟩
    · rw [scanBinsAux, if_neg hg] at h
      cases hb : t.bins.getD (i + 1).toNat d with
      | nil =>
        rw [hb] at h
        have h2 := ih (i + 1) (by omega) h
        exact ⟨h2.1, h2.2.1, by omega⟩
      | cons e rest =>
        rw [hb] at h
        exact absurd (congrArg Prod.fst h) (by simp)

lemma scanBins_terminal (t : StTable) (i : Int) (h : t.num_bins ≤ i + 1) :
    scanBins t i = (none, ⟨some t, i, []⟩) := by
  unfold scanBins
  cases hn : (t.num_bins - i).toNat with
  | zero => simp [scanBinsAux]
  | succ n => simp [scanBinsAux, h]

lemma scanBinsAux_default_eq (d d' : List StTableEntry) (n : Nat) (t : StTable) (i : Int)
    (hwf : t.Wf) (hi : -1 ≤ i) : scanBinsAux d n t i = scanBinsAux d' n t i := by
  induction n generalizing i with
  | zero => rfl
  | succ n ih =>
    by_cases hg : t.num_bins ≤ i + 1
    · simp [scanBinsAux, hg]
    · have hlen : (i + 1).toNat < t.bins.length := by
        unfold StTable.Wf at hwf; omega
      have hd : t.bins.getD (i + 1).toNat d = t.bins.getD (i + 1).toNat d' := by
        rw [List.getD_eq_getElem t.bins d hlen, List.getD_eq_getElem t.bins d' hlen]
      simp only [scanBinsAux, if_neg hg, hd]
      cases t.bins.getD (i + 1).toNat d' with
      | nil => exact ih (i + 1) (by omega)
      | cons e rest => rfl

lemma binsFrom_nil (t : StTable) (i : Int) (hwf : t.Wf) (h : t.num_bins ≤ i) :
    binsFrom t i = [] := by
  have hlen : t.bins.length ≤ i.toNat := by unfold StTable.Wf at hwf; omega
  simp [binsFrom, List.drop_eq_nil_of_le hlen]

lemma binsFrom_succ (t : StTable) (i : Int) (d : List StTableEntry) (hwf : t.Wf)
    (hi : -1 ≤ i) (hlt : i + 1 < t.num_bins) :
    binsFrom t (i + 1) =
      chainDecode (t.bins.getD (i + 1).toNat d) ++ binsFrom t (i + 2) := by
  have hlen : (i + 1).toNat < t.bins.length := by unfold StTable.Wf at hwf; omega
  have h2 : (i + 2).toNat = (i + 1).toNat + 1 := by omega
  unfold binsFrom
  rw [List.getD_eq_getElem t.bins d hlen, List.drop_eq_getElem_cons hlen, h2,
    List.map_cons, List.flatten_cons]

lemma scanBinsAux_yield (n : Nat) (t : StTable) (i : Int) (hwf : t.Wf) (hi : -1 ≤ i)
    (hn : (t.num_bins - i).toNat ≤ n) :
    (∀ s', scanBinsAux [] n t i = (none, s') →
      binsFrom t (i + 1) = [] ∧ s'.pending = []) ∧
    (∀ a s', scanBinsAux [] n t i = (some a, s') →
      binsFrom t (i + 1) = a :: s'.pending) := by
  induction n generalizing i with
  | zero =>
    constructor
    · intro s' h
      have h2 : (⟨some t, i, []⟩ : Names) = s' := congrArg Prod.snd h
      subst h2
      have hb : binsFrom t (i + 1) = [] := binsFrom_nil t (i + 1) hwf (by omega)
      exact ⟨hb, by simp [Names.pending, chainDecode, hb]⟩
    · intro a s' h
      exact absurd (congrArg Prod.fst h) (by simp [scanBinsAux])
  | succ n ih =>
    by_cases hg : t.num_bins ≤ i + 1
    · constructor
      · intro s' h
        rw [scanBinsAux, if_pos hg] at h
        have h2 : (⟨some t, i, []⟩ : Names) = s' := congrArg Prod.snd h
        subst h2
        have hb : binsFrom t (i + 1) = [] := binsFrom_nil t (i + 1) hwf hg
        exact ⟨hb, by simp [Names.pending, chainDecode, hb]⟩
      · intro a s' h
        rw [scanBinsAux, if_pos hg] at h
        exact absurd (congrArg Prod.fst h) (by simp)
    · have hstep : binsFrom t (i + 1) =
          chainDecode (t.bins.getD (i + 1).toNat []) ++ binsFrom t (i + 2) :=
        binsFrom_succ t i [] hwf hi (by omega)
      cases hb : t.bins.getD (i + 1).toNat [] with
      | nil =>
        rw [hb] at hstep
        have ih2 := ih (i + 1) (by omega) (by omega)
        constructor
        · intro s' h
          rw [scanBinsAux, if_neg hg, hb] at h
          have h3 := ih2.1 s' h
          have h4 : i + 1 + 1 = i + 2 := by omega
          rw [h4] at h3
          exact ⟨by simp [hstep, h3.1, chainDecode], h3.2⟩
        · intro a s' h
          rw [scanBinsAux, if_neg hg, hb] at h
          have h3 := ih2.2 a s' h
          have h4 : i + 1 + 1 = i + 2 := by omega
          rw [h4] at h3
          simp [hstep, chainDecode, h3]
      | cons e rest =>
        rw [hb] at hstep
        constructor
        · intro s' h
          rw [scanBinsAux, if_neg hg, hb] at h
          exact absurd (congrArg Prod.fst h) (by simp)
        · intro a s' h
          rw [scanBinsAux, if_neg hg, hb] at h
          have ha : some (decodeEntry e.record) = some a := congrArg Prod.fst h
          have hs : (⟨some t, i + 1, rest⟩ : Names) = s' := congrArg Prod.snd h
          subst hs
          have h4 : i + 1 + 1 = i + 2 := by omega
          simp only [Names.pending, hstep, chainDecode, List.map_cons, h4]
          simp only [Option.some.injEq] at ha
          simp [ha, chainDecode]


lemma next_state_table (s : Names) : (Names.next s).2.table = s.table := by
  obtain ⟨tb, bi, ep⟩ := s
  cases ep with
  | cons e rest => rfl
  | nil =>
    cases tb with
    | none => rfl
    | some t => exact (scanBinsAux_state [] (t.num_bins - bi).toNat t bi).1

lemma next_bin_mono (s : Names) : s.bin_idx ≤ (Names.next s).2.bin_idx := by
  obtain ⟨tb, bi, ep⟩ := s
  cases ep with
  | cons e rest => exact le_refl bi
  | nil =>
    cases tb with
    | none => exact le_refl bi
    | some t => exact (scanBinsAux_state [] (t.num_bins - bi).toNat t bi).2

lemma next_bin_lt (s : Names) (h : ∀ t, s.table = some t → s.bin_idx < t.num_bins) :
    ∀ t, (Names.next s).2.table = some t → (Names.next s).2.bin_idx < t.num_bins := by
  intro t ht
  rw [next_state_table] at ht
  obtain ⟨tb, bi, ep⟩ := s
  cases ht
  have hlt := h t rfl
  cases ep with
  | cons e rest => exact hlt
  | nil => exact scanBinsAux_bin_lt [] (t.num_bins - bi).toNat t bi hlt

lemma next_yield (s : Names) (hwf : ∀ t, s.table = some t → t.Wf) (hi : -1 ≤ s.bin_idx) :
    (∀ s', Names.next s = (none, s') → s.pending = [] ∧ s'.pending = []) ∧
    (∀ a s', Names.next s = (some a, s') → s.pending = a :: s'.pending) := by
  obtain ⟨tb, bi, ep⟩ := s
  cases ep with
  | cons e rest =>
    constructor
    · intro s' h
      exact absurd (congrArg Prod.fst h) (by simp [Names.next])
    · intro a s' h
      have ha : some (decodeEntry e.record) = some a := congrArg Prod.fst h
      have hs : (⟨tb, bi, rest⟩ : Names) = s' := congrArg Prod.snd h
      subst hs
      simp only [Option.some.injEq] at ha
      simp [Names.pending, chainDecode, ha]
  | nil =>
    cases tb with
    | none =>
      constructor
      · intro s' h
        have hs : (⟨none, bi, []⟩ : Names) = s' := congrArg Prod.snd h
        subst hs
        simp [Names.pending, chainDecode]
      · intro a s' h
        exact absurd (congrArg Prod.fst h) (by simp [Names.next])
    | some t =>
      have hy := scanBinsAux_yield (t.num_bins - bi).toNat t bi (hwf t rfl) hi (le_refl _)
      constructor
      · intro s' h
        have h2 := hy.1 s' h
        exact ⟨by simp [Names.pending, chainDecode, h2.1], h2.2⟩
      · intro a s' h
        have h2 := hy.2 a s' h
        simp [Names.pending, chainDecode, h2]

lemma collectAux_pending (n : Nat) (s : Names) (hwf : ∀ t, s.table = some t → t.Wf)
    (hi : -1 ≤ s.bin_idx) (hn : s.pending.length ≤ n) :
    Names.collectAux n s = s.pending := by
  induction n generalizing s with
  | zero =>
    have h0 : s.pending = [] := by
      cases hp : s.pending with
      | nil => rfl
      | cons a l => rw [hp] at hn; simp at hn
    rw [h0]
    rfl
  | succ n ih =>
    cases hnext : Names.next s with
    | mk o s' =>
      cases o with
      | none =>
        have h2 := (next_yield s hwf hi).1 s' hnext
        rw [Names.collectAux, hnext, h2.1]
      | some a =>
        have h2 := (next_yield s hwf hi).2 a s' hnext
        have htb : s'.table = s.table := by
          have := next_state_table s
          rw [hnext] at this
          exact this
        have hwf' : ∀ t, s'.table = some t → t.Wf := by
          intro t ht
          exact hwf t (htb ▸ ht)
        have hi' : -1 ≤ s'.bin_idx := by
          have hmono := next_bin_mono s
          rw [hnext] at hmono
          exact le_trans hi hmono
        have hlen : s'.pending.length ≤ n := by
          rw [h2] at hn
          simp at hn
          omega
        rw [Names.collectAux, hnext]
        show a :: Names.collectAux n s' = s.pending
        rw [ih s' hwf' hi' hlen, h2]

lemma collect_pending (s : Names) (hwf : ∀ t, s.table = some t → t.Wf)
    (hi : -1 ≤ s.bin_idx) : Names.collect s = s.pending :=
  collectAux_pending s.pending.length s hwf hi (le_refl _)

lemma pending_names (r : Regex) : (Regex.names r).pending = registeredPairs r := by
  obtain ⟨tb⟩ := r
  cases tb with
  | none => rfl
  | some t =>
    show chainDecode [] ++ binsFrom t (-1 + 1) = binsFrom t 0
    norm_num [chainDecode]

lemma registeredPairs_length (r : Regex) :
    (registeredPairs r).length = Regex.names_len r := by
  obtain ⟨tb⟩ := r
  cases tb with
  | none => rfl
  | some t =>
    show (binsFrom t 0).length = (t.bins.map List.length).sum
    have hc : (List.length ∘ chainDecode) = fun c : List StTableEntry => c.length := by
      funext c
      simp [chainDecode]
    simp [binsFrom, List.length_flatten, List.map_map, hc]

lemma stepN_inv (k : Nat) (s : Names) (h1 : -1 ≤ s.bin_idx)
    (h2 : ∀ t, s.table = some t → s.bin_idx < t.num_bins) :
    (Names.stepN k s).table = s.table ∧ -1 ≤ (Names.stepN k s).bin_idx ∧
    ∀ t, (Names.stepN k s).table = some t →
      (Names.stepN k s).bin_idx < t.num_bins := by
  induction k generalizing s with
  | zero => exact ⟨rfl, h1, h2⟩
  | succ k ih =>
    have h3 := ih (Names.next s).2 (le_trans h1 (next_bin_mono s)) (next_bin_lt s h2)
    refine ⟨?_, h3.2.1, h3.2.2⟩
    rw [Names.stepN, h3.1, next_state_table]

lemma wf_of_table (tb : StTable) (h : tb.num_bins = (tb.bins.length : Int)) :
    Regex.Wf ⟨some tb⟩ := by
  intro t ht
  have h2 : some tb = some t := ht
  cases Option.some.inj h2
  exact h

/-- C1: a full pass of a Names iterator — `next` repeated until the end
of the sequence — yields every registered `(name, indices)` pair exactly
once: the yielded list is exactly the table's registered pairs, and its
length equals `names_len` on the same pattern. -/
theorem names_full_pass_exact (r : Regex) (h : Regex.Wf r) :
    (Regex.names r).collect = registeredPairs r ∧
    ((Regex.names r).collect).length = Regex.names_len r := by
  have hc := collect_pending (Regex.names r) h (le_refl (-1 : Int))
  rw [hc, pending_names]
  exact ⟨rfl, registeredPairs_length r⟩

theorem names_full_pass_exact_witness :
    (Regex.names fooBarRegex).collect = registeredPairs fooBarRegex ∧
    ((Regex.names fooBarRegex).collect).length = Regex.names_len fooBarRegex :=
  names_full_pass_exact fooBarRegex (wf_of_table fooBarTable (by decide))

/-- C2 counterexample: on `badRegex`, whose first entry violates the
foreign invariants (`back_num = 0`, name byte `0xFF` not well-formed
UTF-8), `next` does not fail with a decode fault: it returns a pair
decoded from the invalid entry, and the iterator is not terminated — the
following call yields the next entry. -/
theorem names_no_decode_fault_cex :
    (Names.next (Regex.names badRegex)).1 = some ([255], [7]) ∧
    (Names.next (Names.next (Regex.names badRegex)).2).1 = some ([97], [4]) := by
  decide

/-- C2 (amended): the literal binding leaves the foreign invariants
unchecked: whatever the pending entry holds, `next` succeeds, returning
the pair decoded from its raw fields, and continues with the rest of the
chain instead of terminating. -/
theorem names_next_unchecked (s : Names) (e : StTableEntry)
    (rest : List StTableEntry) (h : s.entry_ptr = e :: rest) :
    Names.next s = (some (decodeEntry e.record), ⟨s.table, s.bin_idx, rest⟩) := by
  obtain ⟨tb, bi, ep⟩ := s
  cases h
  rfl

theorem names_next_unchecked_witness :
    Names.next ⟨none, 0, [⟨0, 0, badEntry⟩]⟩ =
      (some (decodeEntry badEntry), ⟨none, 0, []⟩) :=
  names_next_unchecked ⟨none, 0, [⟨0, 0, badEntry⟩]⟩ ⟨0, 0, badEntry⟩ [] rfl

/-- C3: for a pending entry satisfying the foreign invariants, `next`
yields the name as exactly `name_len` bytes taken at `name`, and an
indices sequence of length `back_num` — from `back_refs` when
`back_num > 1`, otherwise the single-element view over `back_ref1`. -/
theorem names_next_decodes (s : Names) (e : StTableEntry)
    (rest : List StTableEntry) (h : s.entry_ptr = e :: rest)
    (hv : e.record.Valid) :
    Names.next s =
      (some (e.record.name.take e.record.name_len.toNat,
        if e.record.back_num > 1 then
          e.record.back_refs.take e.record.back_num.toNat
        else [e.record.back_ref1]),
       ⟨s.table, s.bin_idx, rest⟩) ∧
    (e.record.name.take e.record.name_len.toNat).length =
      e.record.name_len.toNat ∧
    (if e.record.back_num > 1 then
        e.record.back_refs.take e.record.back_num.toNat
      else [e.record.back_ref1]).length = e.record.back_num.toNat := by
  obtain ⟨hn0, hn31, hnlen, hb1, hb31, hbrefs⟩ := hv
  have hcast : usizeCast e.record.name_len = e.record.name_len.toNat := by
    unfold usizeCast
    rw [Int.emod_eq_of_lt hn0 (by omega)]
  have hcast2 : usizeCast e.record.back_num = e.record.back_num.toNat := by
    unfold usizeCast
    rw [Int.emod_eq_of_lt (by omega) (by omega)]
  obtain ⟨tb, bi, ep⟩ := s
  cases h
  refine ⟨?_, ?_, ?_⟩
  · show (some (decodeEntry e.record), (⟨tb, bi, rest⟩ : Names)) = _
    unfold decodeEntry
    rw [hcast, hcast2]
  · rw [List.length_take]
    omega
  · by_cases hgt : e.record.back_num > 1
    · rw [if_pos hgt, List.length_take]
      have := hbrefs hgt
      omega
    · rw [if_neg hgt]
      show 1 = e.record.back_num.toNat
      omega

theorem names_next_decodes_witness :
    Names.next ⟨none, 0, [⟨0, 0, barEntry⟩]⟩ =
      (some (barEntry.name.take barEntry.name_len.toNat,
        if barEntry.back_num > 1 then
          barEntry.back_refs.take barEntry.back_num.toNat
        else [barEntry.back_ref1]),
       ⟨none, 0, []⟩) ∧
    (barEntry.name.take barEntry.name_len.toNat).length =
      barEntry.name_len.toNat ∧
    (if barEntry.back_num > 1 then
        barEntry.back_refs.take barEntry.back_num.toNat
      else [barEntry.back_ref1]).length = barEntry.back_num.toNat :=
  names_next_decodes ⟨none, 0, [⟨0, 0, barEntry⟩]⟩ ⟨0, 0, barEntry⟩ [] rfl
    ⟨by decide, by decide, by decide, by decide, by decide, fun _ => by decide⟩

/-- C4: with an absent (null) name table, every call of `next` — the
first and every later one — returns the end-of-sequence result with the
fresh state unchanged; the absent table is never an error. -/
theorem names_absent_table_empty (r : Regex) (h : r.name_table = none)
    (k : Nat) :
    Names.next (Names.stepN k (Regex.names r)) = (none, Regex.names r) := by
  obtain ⟨tb⟩ := r
  cases h
  have hfix : ∀ j, Names.stepN j (Regex.names ⟨none⟩) = Regex.names ⟨none⟩ := by
    intro j
    induction j with
    | zero => rfl
    | succ j ih =>
      rw [Names.stepN]
      exact ih
  rw [hfix k]
  rfl

theorem names_absent_table_empty_witness :
    Names.next (Names.stepN 0 (Regex.names noNamesRegex)) =
      (none, Regex.names noNamesRegex) :=
  names_absent_table_empty noNamesRegex rfl 0

/-- C5: once `next` has returned end-of-sequence, every later call on
the resulting state returns end-of-sequence again with the state
unchanged — the iterator never resets or yields after terminating. -/
theorem names_terminal_stays (s s' : Names) (h : Names.next s = (none, s')) :
    Names.next s' = (none, s') := by
  obtain ⟨tb, bi, ep⟩ := s
  cases ep with
  | cons e rest => exact absurd (congrArg Prod.fst h) (by simp [Names.next])
  | nil =>
    cases tb with
    | none =>
      have hs : (⟨none, bi, []⟩ : Names) = s' := congrArg Prod.snd h
      subst hs
      rfl
    | some t =>
      have hc := scanBinsAux_none_char [] (t.num_bins - bi).toNat t bi s'
        (le_refl _) h
      obtain ⟨hs, hterm, _⟩ := hc
      rw [hs]
      show scanBins t s'.bin_idx = (none, ⟨some t, s'.bin_idx, []⟩)
      exact scanBins_terminal t s'.bin_idx hterm

theorem names_terminal_stays_witness :
    Names.next ⟨some fooBarTable, 1, []⟩ = (none, ⟨some fooBarTable, 1, []⟩) :=
  names_terminal_stays ⟨some fooBarTable, 1, []⟩ ⟨some fooBarTable, 1, []⟩
    (by decide)

/-- C6: enumeration is bucket-index-ascending then chain-ordered: a
pending chain entry is decoded immediately without touching `bin_idx`,
an empty bucket is skipped inside the same `next` call, and a full pass
yields the buckets' chains in bucket order, head to tail. -/
theorem names_enumeration_order (r : Regex) (h : Regex.Wf r) :
    (∀ (s : Names) (e : StTableEntry) (rest : List StTableEntry),
      s.entry_ptr = e :: rest →
      (Names.next s).2.bin_idx = s.bin_idx ∧
      (Names.next s).1 = some (decodeEntry e.record)) ∧
    (∀ (d : List StTableEntry) (n : Nat) (t : StTable) (i : Int),
      ¬ t.num_bins ≤ i + 1 → t.bins.getD (i + 1).toNat d = [] →
      scanBinsAux d (n + 1) t i = scanBinsAux d n t (i + 1)) ∧
    (Regex.names r).collect = registeredPairs r := by
  refine ⟨?_, ?_, ?_⟩
  · intro s e rest hep
    obtain ⟨tb, bi, ep⟩ := s
    cases hep
    exact ⟨rfl, rfl⟩
  · intro d n t i hg hb
    rw [scanBinsAux, if_neg hg, hb]
  · rw [collect_pending (Regex.names r) h (le_refl (-1 : Int)), pending_names]

theorem names_enumeration_order_witness :
    (Names.next ⟨some skipTable, 0, [⟨0, 0, fooEntry⟩]⟩).2.bin_idx = 0 ∧
    scanBinsAux [] 2 skipTable (-1) = scanBinsAux [] 1 skipTable 0 ∧
    (Regex.names skipRegex).collect = registeredPairs skipRegex := by
  have h := names_enumeration_order skipRegex (wf_of_table skipTable (by decide))
  exact ⟨(h.1 ⟨some skipTable, 0, [⟨0, 0, fooEntry⟩]⟩ ⟨0, 0, fooEntry⟩ [] rfl).1,
    h.2.1 [] 1 skipTable (-1) (by decide) (by decide), h.2.2⟩

/-- C7: fresh iterators requested from the same unchanged pattern always
produce the identical sequence: any two full passes (under any
sufficient step budgets) agree, and both equal the registered pairs; the
pattern itself is never mutated by iteration. -/
theorem names_fresh_agree (r : Regex) (h : Regex.Wf r) (fuel1 fuel2 : Nat)
    (h1 : (registeredPairs r).length ≤ fuel1)
    (h2 : (registeredPairs r).length ≤ fuel2) :
    Names.collectAux fuel1 (Regex.names r) =
      Names.collectAux fuel2 (Regex.names r) ∧
    Names.collectAux fuel1 (Regex.names r) = registeredPairs r := by
  have hp : (Regex.names r).pending = registeredPairs r := pending_names r
  have ha := collectAux_pending fuel1 (Regex.names r) h (le_refl (-1 : Int))
    (by rw [hp]; exact h1)
  have hb := collectAux_pending fuel2 (Regex.names r) h (le_refl (-1 : Int))
    (by rw [hp]; exact h2)
  rw [ha, hb, hp]
  exact ⟨rfl, rfl⟩

theorem names_fresh_agree_witness :
    Names.collectAux 1 (Regex.names skipRegex) =
      Names.collectAux 3 (Regex.names skipRegex) ∧
    Names.collectAux 1 (Regex.names skipRegex) = registeredPairs skipRegex :=
  names_fresh_agree skipRegex (wf_of_table skipTable (by decide)) 1 3
    (by decide) (by decide)

/-- C8: scenario A — for the pattern whose named groups are `foo`
(labelling group 1) and `bar` (labelling groups 2 and 3), `names_len`
returns 2 and a full pass yields exactly `("foo", [1])` then
`("bar", [2, 3])` in the engine's bucket/chain order. -/
theorem names_scenario_a :
    Regex.names_len fooBarRegex = 2 ∧
    (Regex.names fooBarRegex).collect =
      [([102, 111, 111], [1]), ([98, 97, 114], [2, 3])] := by
  decide

/-- C9: for a pending entry whose `back_num` is at most 1 — including
the invariant-violating values 0 and below — `next` does not fail and
returns the single-element indices view over the inline `back_ref1`
field; the indices sequence never has length 0. -/
theorem names_next_low_back_num (s : Names) (e : StTableEntry)
    (rest : List StTableEntry) (h : s.entry_ptr = e :: rest)
    (hb : e.record.back_num ≤ 1) :
    Names.next s = (some (e.record.name.take (usizeCast e.record.name_len),
      [e.record.back_ref1]), ⟨s.table, s.bin_idx, rest⟩) ∧
    ([e.record.back_ref1] : List Int).length = 1 := by
  obtain ⟨tb, bi, ep⟩ := s
  cases h
  constructor
  · show (some (decodeEntry e.record), (⟨tb, bi, rest⟩ : Names)) = _
    unfold decodeEntry
    rw [if_neg (by omega)]
  · rfl

theorem names_next_low_back_num_witness :
    Names.next ⟨none, 5, [⟨0, 0, badEntry⟩]⟩ =
      (some (badEntry.name.take (usizeCast badEntry.name_len),
        [badEntry.back_ref1]), ⟨none, 5, []⟩) ∧
    ([badEntry.back_ref1] : List Int).length = 1 :=
  names_next_low_back_num ⟨none, 5, [⟨0, 0, badEntry⟩]⟩ ⟨0, 0, badEntry⟩ []
    rfl (by decide)

/-- C10: across any number of `next` calls on one iterator, the bucket
index starts at -1, never decreases, and stays below the table's bucket
count; the bucket-array lookups are in bounds — the scan from any
reachable index does not depend on what an out-of-bounds read would
have produced. -/
theorem names_bin_idx_bounds (r : Regex) (k : Nat) (h : Regex.Wf r) :
    (Regex.names r).bin_idx = -1 ∧
    -1 ≤ (Names.stepN k (Regex.names r)).bin_idx ∧
    (Names.stepN k (Regex.names r)).bin_idx ≤
      (Names.next (Names.stepN k (Regex.names r))).2.bin_idx ∧
    ∀ t, (Names.stepN k (Regex.names r)).table = some t →
      (Names.stepN k (Regex.names r)).bin_idx < t.num_bins ∧
      ∀ (d : List StTableEntry) (n : Nat),
        scanBinsAux d n t (Names.stepN k (Regex.names r)).bin_idx =
          scanBinsAux [] n t (Names.stepN k (Regex.names r)).bin_idx := by
  have hinit2 : ∀ t, (Regex.names r).table = some t →
      (Regex.names r).bin_idx < t.num_bins := by
    intro t ht
    have hwf := h t ht
    unfold StTable.Wf at hwf
    show (-1 : Int) < t.num_bins
    omega
  have hs := stepN_inv k (Regex.names r) (le_refl (-1 : Int)) hinit2
  refine ⟨rfl, hs.2.1, next_bin_mono _, ?_⟩
  intro t ht
  refine ⟨hs.2.2 t ht, ?_⟩
  intro d n
  have htr := hs.1.symm.trans ht
  have hwf : t.Wf := h t htr
  exact scanBinsAux_default_eq d [] n t _ hwf hs.2.1

theorem names_bin_idx_bounds_witness :
    -1 ≤ (Names.stepN 1 (Regex.names fooBarRegex)).bin_idx ∧
    (Names.stepN 1 (Regex.names fooBarRegex)).bin_idx < fooBarTable.num_bins := by
  have h := names_bin_idx_bounds fooBarRegex 1 (wf_of_table fooBarTable (by decide))
  exact ⟨h.2.1, (h.2.2.2 fooBarTable rfl).1⟩

end RustOnig
